import Mathlib

/-!
Verification development for the cartographer change-detection engine:
glob pattern matching, file selection, per-file and per-folder hashing,
change detection and checkpoint update, shallowly embedded from the
Python source (src/skills/cartography/scripts/cartographer.py).

Paths, patterns and digests are modelled as lists of characters; the
order defined below is code-point lexicographic, which is exactly how
Python compares strings.
-/

/-- Code-point lexicographic order on character lists, matching Python
string comparison (a proper prefix sorts before its extensions). -/
def lexLe : List Char → List Char → Bool
  | [], _ => true
  | _ :: _, [] => false
  | a :: as, b :: bs =>
    if a < b then true
    else if b < a then false
    else lexLe as bs

theorem lexLe_total : ∀ a b, lexLe a b || lexLe b a := by
  intro a
  induction a with
  | nil => intro b; simp [lexLe]
  | cons x xs ih =>
    intro b
    cases b with
    | nil => simp [lexLe]
    | cons y ys =>
      rcases lt_trichotomy x y with h | h | h
      · simp [lexLe, h]
      · subst h
        simp only [lexLe, lt_irrefl, if_false]
        exact ih ys
      · simp [lexLe, h, not_lt_of_gt h]

theorem lexLe_trans : ∀ a b c, lexLe a b = true → lexLe b c = true → lexLe a c = true := by
  intro a
  induction a with
  | nil => intro b c _ _; rfl
  | cons x xs ih =>
    intro b c hab hbc
    cases b with
    | nil => simp [lexLe] at hab
    | cons y ys =>
      cases c with
      | nil => simp [lexLe] at hbc
      | cons z zs =>
        rcases lt_trichotomy x y with hxy | hxy | hxy
        · rcases lt_trichotomy y z with hyz | hyz | hyz
          · simp [lexLe, lt_trans hxy hyz]
          · subst hyz; simp [lexLe, hxy]
          · simp [lexLe, hyz, not_lt_of_gt hyz] at hbc
        · subst hxy
          rcases lt_trichotomy x z with hyz | hyz | hyz
          · simp [lexLe, hyz]
          · subst hyz
            simp only [lexLe, lt_irrefl, if_false] at hab hbc ⊢
            exact ih ys zs hab hbc
          · simp [lexLe, hyz, not_lt_of_gt hyz] at hbc
        · simp [lexLe, hxy, not_lt_of_gt hxy] at hab

theorem lexLe_antisymm : ∀ a b, lexLe a b = true → lexLe b a = true → a = b := by
  intro a
  induction a with
  | nil =>
    intro b _ hba
    cases b with
    | nil => rfl
    | cons y ys => simp [lexLe] at hba
  | cons x xs ih =>
    intro b hab hba
    cases b with
    | nil => simp [lexLe] at hab
    | cons y ys =>
      rcases lt_trichotomy x y with h | h | h
      · simp [lexLe, h, not_lt_of_gt h] at hba
      · subst h
        simp only [lexLe, lt_irrefl, if_false] at hab hba
        rw [ih ys hab hba]
      · simp [lexLe, h, not_lt_of_gt h] at hab

/-- Tokens of the compiled pattern. The source escapes the glob pattern
and then rewrites, in this order, each double-star-slash, double-star,
single star and question mark into a regex fragment; every remaining
character matches literally. -/
inductive Tok where
  | lit (c : Char)
  | ssl
  | ss
  | s
  | q
deriving DecidableEq

/-- End-of-branch acceptance for the source matcher: the dollar anchor of
the Python regex matches at the end of the string or just before one
trailing newline. -/
def dollarAccept (cs : List Char) : Bool :=
  cs.isEmpty || cs == ['\n']

/-- Kleene-star consumption: accept when the continuation accepts the
rest, or consume one character not rejected by the bad-character
predicate and keep consuming. Instantiated with slash for the single-star
fragment and with newline for the dot-star fragment. -/
def matchStar (k : List Char → Bool) (bad : Char → Bool) : List Char → Bool
  | [] => k []
  | c :: cs => k (c :: cs) || (!bad c && matchStar k bad cs)

/-- Nonempty case of the optional directory-prefix fragment built from a
double-star-slash: any characters other than newline, then a slash, then
the continuation. -/
def matchDirOpt (k : List Char → Bool) : List Char → Bool
  | [] => false
  | c :: cs => (c == '/' && k cs) || (c != '\n' && matchDirOpt k cs)

/-- Matcher for a compiled token body followed by the dollar anchor,
translated from the regex the source builds: the dot of the regex
excludes newline, the character class of the single-star fragment
excludes only slash, and the dollar anchor also accepts just before one
trailing newline. -/
def matchToks : List Tok → List Char → Bool
  | [], cs => dollarAccept cs
  | Tok.lit c :: ts, cs =>
    match cs with
    | [] => false
    | x :: xs => x == c && matchToks ts xs
  | Tok.q :: ts, cs =>
    match cs with
    | [] => false
    | x :: xs => x != '\n' && matchToks ts xs
  | Tok.s :: ts, cs => matchStar (matchToks ts) (fun c => c == '/') cs
  | Tok.ss :: ts, cs => matchStar (matchToks ts) (fun c => c == '\n') cs
  | Tok.ssl :: ts, cs => matchToks ts cs || matchDirOpt (matchToks ts) cs

/-- Modelled from the spec, section 4.1: nonempty case of a directory
prefix of zero or more whole path segments, that is any characters
followed by a slash. -/
def specDirOpt (k : List Char → Bool) : List Char → Bool
  | [] => false
  | c :: cs => (c == '/' && k cs) || specDirOpt k cs

/-- Modelled from the spec, section 4.1: idealized glob semantics in
which a question mark matches exactly one character, the double-star
fragments match any characters whatsoever, and matching must consume the
path exactly to its end. -/
def specToks : List Tok → List Char → Bool
  | [], cs => cs.isEmpty
  | Tok.lit c :: ts, cs =>
    match cs with
    | [] => false
    | x :: xs => x == c && specToks ts xs
  | Tok.q :: ts, cs =>
    match cs with
    | [] => false
    | _ :: xs => specToks ts xs
  | Tok.s :: ts, cs => matchStar (specToks ts) (fun c => c == '/') cs
  | Tok.ss :: ts, cs => matchStar (specToks ts) (fun _ => false) cs
  | Tok.ssl :: ts, cs => specToks ts cs || specDirOpt (specToks ts) cs

/-- Stage one of the source's pattern compilation: replace every leftmost
non-overlapping occurrence of double-star-slash by its token, keeping
every other character literal, exactly as Python string replacement scans
left to right. -/
def stage1 : List Char → List Tok
  | '*' :: '*' :: '/' :: rest => Tok.ssl :: stage1 rest
  | c :: rest => Tok.lit c :: stage1 rest
  | [] => []

/-- Stage two: replace every leftmost remaining pair of adjacent literal
stars by the double-star token. -/
def stage2 : List Tok → List Tok
  | Tok.lit '*' :: Tok.lit '*' :: rest => Tok.ss :: stage2 rest
  | t :: rest => t :: stage2 rest
  | [] => []

/-- Stage three: replace every remaining literal star by the single-star
token. -/
def stage3 (ts : List Tok) : List Tok :=
  ts.map (fun t => if t = Tok.lit '*' then Tok.s else t)

/-- Stage four: replace every literal question mark by its token. -/
def stage4 (ts : List Tok) : List Tok :=
  ts.map (fun t => if t = Tok.lit '?' then Tok.q else t)

structure CompiledPattern where
  anchored : Bool
  toks : List Tok

/-- Per-pattern compilation mirroring the PatternMatcher constructor:
build the token body, append a dot-star suffix when the pattern ends in a
slash, then either anchor at the root, dropping the pattern's leading
slash, or leave the pattern free to start at any segment boundary. -/
def compilePattern (pat : List Char) : CompiledPattern :=
  let base := stage4 (stage3 (stage2 (stage1 pat)))
  let base2 := if pat.getLast? = some '/' then base ++ [Tok.ss] else base
  if pat.head? = some '/' then { anchored := true, toks := base2.drop 1 }
  else { anchored := false, toks := base2 }

/-- Segment-boundary search: try the matcher after every slash of the
path. Searching the source's non-anchored branch, an optional group of
any characters ending in a slash followed by the body, succeeds exactly
when the body matches the whole path or a suffix beginning right after
some slash, since the search may start at any position and in particular
directly at any slash. -/
def segSearchWith (m : List Char → Bool) : List Char → Bool
  | [] => false
  | c :: cs => (c == '/' && m cs) || segSearchWith m cs

/-- Matching one compiled pattern against a path, as the source's regex
search behaves on that pattern's alternation branch. -/
def matchCompiled (cp : CompiledPattern) (p : List Char) : Bool :=
  if cp.anchored then matchToks cp.toks p
  else matchToks cp.toks p || segSearchWith (matchToks cp.toks) p

/-- Matcher of the PatternMatcher class: the source joins all compiled
patterns into one alternation of self-contained end-anchored branches and
searches it, which succeeds exactly when some branch's own search
succeeds; with no patterns the regex is absent and nothing matches. -/
def PatternMatcher.matches (patterns : List (List Char)) (p : List Char) : Bool :=
  patterns.any (fun pat => matchCompiled (compilePattern pat) p)

/-- Modelled from the spec: one compiled pattern under the idealized glob
semantics, anchored at the root when the pattern began with a slash and
otherwise free to start at any segment boundary. -/
def specCompiled (cp : CompiledPattern) (p : List Char) : Bool :=
  if cp.anchored then specToks cp.toks p
  else specToks cp.toks p || segSearchWith (specToks cp.toks) p

/-- Modelled from the spec: a pattern list matches a path when at least
one of its patterns matches under the idealized glob semantics. -/
def specMatches (patterns : List (List Char)) (p : List Char) : Bool :=
  patterns.any (fun pat => specCompiled (compilePattern pat) p)

theorem matchStar_congr_free (k₁ k₂ : List Char → Bool) (bad : Char → Bool)
    (h : ∀ cs, '\n' ∉ cs → k₁ cs = k₂ cs) :
    ∀ cs, '\n' ∉ cs → matchStar k₁ bad cs = matchStar k₂ bad cs := by
  intro cs
  induction cs with
  | nil => intro hnl; simpa [matchStar] using h [] hnl
  | cons c cs ih =>
    intro hnl
    have hcs : '\n' ∉ cs := fun m => hnl (List.mem_cons_of_mem _ m)
    simp only [matchStar]
    rw [h _ hnl, ih hcs]

theorem matchStar_newline_free (k₁ k₂ : List Char → Bool)
    (h : ∀ cs, '\n' ∉ cs → k₁ cs = k₂ cs) :
    ∀ cs, '\n' ∉ cs →
      matchStar k₁ (fun c => c == '\n') cs = matchStar k₂ (fun _ => false) cs := by
  intro cs
  induction cs with
  | nil => intro hnl; simpa [matchStar] using h [] hnl
  | cons c cs ih =>
    intro hnl
    have hc : c ≠ '\n' := fun e => hnl (e ▸ List.mem_cons_self c cs)
    have hcs : '\n' ∉ cs := fun m => hnl (List.mem_cons_of_mem _ m)
    have hb : (c == '\n') = false := by simp [hc]
    simp only [matchStar, hb]
    rw [h _ hnl, ih hcs]

theorem matchDirOpt_free (k₁ k₂ : List Char → Bool)
    (h : ∀ cs, '\n' ∉ cs → k₁ cs = k₂ cs) :
    ∀ cs, '\n' ∉ cs → matchDirOpt k₁ cs = specDirOpt k₂ cs := by
  intro cs
  induction cs with
  | nil => intro _; rfl
  | cons c cs ih =>
    intro hnl
    have hc : c ≠ '\n' := fun e => hnl (e ▸ List.mem_cons_self c cs)
    have hcs : '\n' ∉ cs := fun m => hnl (List.mem_cons_of_mem _ m)
    have hb : (c != '\n') = true := by simp [hc]
    simp only [matchDirOpt, specDirOpt, hb]
    rw [h _ hcs, ih hcs]
    simp

theorem matchToks_eq_specToks : ∀ ts cs, '\n' ∉ cs → matchToks ts cs = specToks ts cs := by
  intro ts
  induction ts with
  | nil =>
    intro cs hnl
    cases cs with
    | nil => rfl
    | cons c cs' =>
      have hc : c ≠ '\n' := fun e => hnl (e ▸ List.mem_cons_self c cs')
      simp only [matchToks, specToks, dollarAccept]
      simp [hc]
  | cons t ts ih =>
    intro cs hnl
    cases t with
    | lit c =>
      cases cs with
      | nil => rfl
      | cons x xs =>
        have hxs : '\n' ∉ xs := fun m => hnl (List.mem_cons_of_mem _ m)
        simp only [matchToks, specToks]
        rw [ih xs hxs]
    | q =>
      cases cs with
      | nil => rfl
      | cons x xs =>
        have hx : x ≠ '\n' := fun e => hnl (e ▸ List.mem_cons_self x xs)
        have hxs : '\n' ∉ xs := fun m => hnl (List.mem_cons_of_mem _ m)
        have hb : (x != '\n') = true := by simp [hx]
        simp only [matchToks, specToks, hb]
        rw [ih xs hxs]
        simp
    | s =>
      simp only [matchToks, specToks]
      exact matchStar_congr_free _ _ _ ih cs hnl
    | ss =>
      simp only [matchToks, specToks]
      exact matchStar_newline_free _ _ ih cs hnl
    | ssl =>
      simp only [matchToks, specToks]
      rw [ih cs hnl, matchDirOpt_free _ _ ih cs hnl]

theorem segSearchWith_congr_free (m₁ m₂ : List Char → Bool)
    (h : ∀ cs, '\n' ∉ cs → m₁ cs = m₂ cs) :
    ∀ cs, '\n' ∉ cs → segSearchWith m₁ cs = segSearchWith m₂ cs := by
  intro cs
  induction cs with
  | nil => intro _; rfl
  | cons c cs ih =>
    intro hnl
    have hcs : '\n' ∉ cs := fun m => hnl (List.mem_cons_of_mem _ m)
    simp only [segSearchWith]
    rw [h _ hcs, ih hcs]

theorem matchCompiled_eq_spec (cp : CompiledPattern) (p : List Char) (h : '\n' ∉ p) :
    matchCompiled cp p = specCompiled cp p := by
  unfold matchCompiled specCompiled
  by_cases ha : cp.anchored = true
  · rw [if_pos ha, if_pos ha]
    exact matchToks_eq_specToks cp.toks p h
  · rw [if_neg ha, if_neg ha]
    rw [matchToks_eq_specToks cp.toks p h,
      segSearchWith_congr_free _ _ (fun cs hc => matchToks_eq_specToks cp.toks cs hc) p h]

theorem matches_eq_specMatches (pats : List (List Char)) (p : List Char) (h : '\n' ∉ p) :
    PatternMatcher.matches pats p = specMatches pats p := by
  unfold PatternMatcher.matches specMatches
  induction pats with
  | nil => rfl
  | cons pat pats ih =>
    simp only [List.any_cons]
    rw [matchCompiled_eq_spec (compilePattern pat) p h, ih]

/-- Directory tree: the plain files and the named subdirectories of one
directory. The tracked root is the top node; listing order models the
filesystem enumeration order, which selection must not depend on. -/
inductive FSTree where
  | node (files : List (List Char)) (dirs : List (List Char × FSTree))

/-- Hidden-name test of the walk, the source's startswith check on a
leading dot. -/
def isHiddenName (n : List Char) : Bool :=
  n.head? == some '.'

/-- Relative-path construction of the walk: at the root the relative
directory is empty and the path is the bare file name; deeper, the parent
path and the name are joined with a slash, as os.path.join produces after
the source normalizes separators (the walk never produces a leading
dot-slash to strip). -/
def joinRel (pre : List Char) (n : List Char) : List Char :=
  if pre.isEmpty then n else pre ++ '/' :: n

mutual
/-- Walk of os.walk over the tree below one directory whose root-relative
path is the first argument: the directory's own files first, then the
kept subdirectories in listing order. File names are never filtered
here. -/
def walkTree (pre : List Char) : FSTree → List (List Char)
  | FSTree.node fs ds => fs.map (fun n => joinRel pre n) ++ walkDirs pre ds

/-- Walk of the subdirectory list of one directory: subdirectories whose
name begins with a dot are pruned in place from dirnames and never
descended into; the rest are walked recursively. -/
def walkDirs (pre : List Char) : List (List Char × FSTree) → List (List Char)
  | [] => []
  | (n, t) :: rest =>
    (if isHiddenName n then [] else walkTree (joinRel pre n) t) ++ walkDirs pre rest
end

/-- Selection predicate applied to every walked file path, in the
source's order: an ignore-file match excludes unconditionally; otherwise
an exclude match excludes unless the path is literally in the exceptions
set; what remains is selected when an include pattern matches it or it is
literally in the exceptions set. -/
def selectKeep (inc exc exn git : List (List Char)) (p : List Char) : Bool :=
  if PatternMatcher.matches git p then false
  else if PatternMatcher.matches exc p && !(exn.contains p) then false
  else PatternMatcher.matches inc p || exn.contains p

/-- File selection: walk the tree from the root, keep the paths passing
the predicate chain, and return them sorted. The source collects
absolute paths and sorts those; they all share the root prefix, so that
order coincides with the code-point order of the relative paths, which
every caller immediately converts back to. -/
def select_files (tree : FSTree) (inc exc exn git : List (List Char)) : List (List Char) :=
  ((walkTree [] tree).filter (selectKeep inc exc exn git)).mergeSort lexLe

theorem selectKeep_eq_true (inc exc exn git : List (List Char)) (p : List Char) :
    selectKeep inc exc exn git p = true ↔
      PatternMatcher.matches git p = false ∧
      (PatternMatcher.matches exc p = true → p ∈ exn) ∧
      (PatternMatcher.matches inc p = true ∨ p ∈ exn) := by
  unfold selectKeep
  by_cases hg : PatternMatcher.matches git p = true
  · simp [hg]
  · by_cases hm : p ∈ exn
    · have hc : exn.contains p = true := List.elem_iff.mpr hm
      simp [hg, hc, hm]
    · have hc : exn.contains p = false := by
        rw [Bool.eq_false_iff]
        intro hcc
        exact hm (List.elem_iff.mp hcc)
      by_cases hx : PatternMatcher.matches exc p = true
      · simp [hg, hc, hx, hm]
      · simp [hg, hc, hx, hm]

theorem mem_select_files (tree : FSTree) (inc exc exn git : List (List Char)) (p : List Char) :
    p ∈ select_files tree inc exc exn git ↔
      p ∈ walkTree [] tree ∧ selectKeep inc exc exn git p = true := by
  unfold select_files
  rw [List.mem_mergeSort, List.mem_filter]

theorem select_files_pairwise (tree : FSTree) (inc exc exn git : List (List Char)) :
    (select_files tree inc exc exn git).Pairwise (fun a b => lexLe a b = true) := by
  unfold select_files
  exact List.sorted_mergeSort lexLe_trans lexLe_total _

theorem select_files_perm (tree : FSTree) (inc exc exn git : List (List Char)) :
    List.Perm (select_files tree inc exc exn git)
      ((walkTree [] tree).filter (selectKeep inc exc exn git)) := by
  unfold select_files
  exact List.mergeSort_perm _ _

/-- Order on path-digest pairs used when Python sorts the qualifying
tuples: lexicographic on the path first, then on the digest. -/
def pairLe (x y : List Char × List Char) : Bool :=
  if x.1 = y.1 then lexLe x.2 y.2 else lexLe x.1 y.1

theorem pairLe_total : ∀ x y, pairLe x y || pairLe y x := by
  intro x y
  unfold pairLe
  by_cases h : x.1 = y.1
  · simp only [h, if_pos rfl, if_pos h.symm]
    exact lexLe_total x.2 y.2
  · have h' : y.1 ≠ x.1 := fun e => h e.symm
    rw [if_neg h, if_neg h']
    exact lexLe_total x.1 y.1

theorem pairLe_trans : ∀ x y z, pairLe x y = true → pairLe y z = true → pairLe x z = true := by
  intro x y z hxy hyz
  unfold pairLe at hxy hyz ⊢
  by_cases h1 : x.1 = y.1
  · by_cases h2 : y.1 = z.1
    · rw [if_pos h1] at hxy
      rw [if_pos h2] at hyz
      rw [if_pos (h1.trans h2)]
      exact lexLe_trans _ _ _ hxy hyz
    · have hxz : x.1 ≠ z.1 := fun e => h2 (h1.symm.trans e)
      rw [if_neg h2] at hyz
      rw [if_neg hxz, h1]
      exact hyz
  · by_cases h2 : y.1 = z.1
    · have hxz : x.1 ≠ z.1 := fun e => h1 (e.trans h2.symm)
      rw [if_neg h1] at hxy
      rw [if_neg hxz, ← h2]
      exact hxy
    · rw [if_neg h1] at hxy
      rw [if_neg h2] at hyz
      by_cases hxz : x.1 = z.1
      · exfalso
        rw [← hxz] at hyz
        exact h1 (lexLe_antisymm _ _ hxy hyz)
      · rw [if_neg hxz]
        exact lexLe_trans _ _ _ hxy hyz

theorem pairLe_antisymm : ∀ x y, pairLe x y = true → pairLe y x = true → x = y := by
  intro x y hxy hyx
  unfold pairLe at hxy hyx
  by_cases h1 : x.1 = y.1
  · rw [if_pos h1] at hxy
    rw [if_pos h1.symm] at hyx
    exact Prod.ext h1 (lexLe_antisymm _ _ hxy hyx)
  · rw [if_neg h1] at hxy
    rw [if_neg (fun e => h1 e.symm)] at hyx
    exact absurd (lexLe_antisymm _ _ hxy hyx) h1

/-- Abstract model of the MD5 hex digest produced by hashlib in the
source. Nothing here depends on MD5 internals: only that the digest is a
fixed deterministic function of the bytes fed to the hasher in order,
and that a digest is never the empty string (a real hex digest has 32
characters). It is modelled as tagging the accumulated message. -/
def md5Model (msg : List Char) : List Char :=
  '#' :: msg

/-- Hash of one file, compute_file_hash: the source streams the file in
fixed-size chunks into the hasher, which therefore accumulates exactly
the file's bytes; an open or read that raises an I/O error is caught and
yields the empty-string sentinel instead. The fallible read is modelled
as an optional content. -/
def compute_file_hash (readResult : Option (List Char)) : List Char :=
  match readResult with
  | some content => md5Model content
  | none => []

/-- Per-file hashing loop shared by the init, changes and update
commands: every selected file is mapped to its digest, unreadable files
included. -/
def build_file_hashes (readF : List Char → Option (List Char))
    (files : List (List Char)) : List (List Char × List Char) :=
  files.map (fun f => (f, compute_file_hash (readF f)))

/-- Qualification test of compute_folder_hash, verbatim from its
comprehension: the path starts with the folder followed by a slash, or
the folder is the root dot and the path contains no slash. -/
def folderQual (folder : List Char) (path : List Char) : Bool :=
  (folder ++ ['/']).isPrefixOf path || (folder == ['.'] && !(path.contains '/'))

/-- Qualifying path-digest pairs of a folder, sorted as Python sorts
tuples. -/
def folder_files (folder : List Char) (m : List (List Char × List Char)) :
    List (List Char × List Char) :=
  (m.filter (fun pr => folderQual folder pr.1)).mergeSort pairLe

/-- Canonical line fed into the folder hasher for one pair: path, colon,
digest, newline. -/
def canonLine (pr : List Char × List Char) : List Char :=
  pr.1 ++ ':' :: (pr.2 ++ ['\n'])

/-- Folder hash, compute_folder_hash: the empty-string sentinel when no
pair qualifies, else the digest of the canonical lines of the sorted
qualifying pairs, accumulated in sorted order. -/
def compute_folder_hash (folder : List Char) (m : List (List Char × List Char)) : List Char :=
  if (folder_files folder m).isEmpty then []
  else md5Model ((folder_files folder m).foldl (fun acc pr => acc ++ canonLine pr) [])

/-- Modelled from the spec, section 3: a file record lies under a folder
when the folder is the root dot, under which every record lies directly
or transitively, or when the folder followed by a slash is a prefix of
the path. -/
def folderQualSpec (folder : List Char) (path : List Char) : Bool :=
  folder == ['.'] || (folder ++ ['/']).isPrefixOf path

/-- Modelled from the spec: qualifying pairs under the transitive
reading, sorted the same way. -/
def folder_files_spec (folder : List Char) (m : List (List Char × List Char)) :
    List (List Char × List Char) :=
  (m.filter (fun pr => folderQualSpec folder pr.1)).mergeSort pairLe

/-- Modelled from the spec: folder hash over the transitive qualifying
pairs. -/
def compute_folder_hash_spec (folder : List Char) (m : List (List Char × List Char)) : List Char :=
  if (folder_files_spec folder m).isEmpty then []
  else md5Model ((folder_files_spec folder m).foldl (fun acc pr => acc ++ canonLine pr) [])

theorem folder_files_pairwise (folder : List Char) (m : List (List Char × List Char)) :
    (folder_files folder m).Pairwise (fun a b => pairLe a b = true) :=
  List.sorted_mergeSort pairLe_trans pairLe_total _

theorem folder_files_perm (folder : List Char) (m : List (List Char × List Char)) :
    List.Perm (folder_files folder m) (m.filter (fun pr => folderQual folder pr.1)) :=
  List.mergeSort_perm _ _

theorem folder_files_of_perm (folder : List Char) (m m' : List (List Char × List Char))
    (h : List.Perm m m') : folder_files folder m = folder_files folder m' := by
  haveI : IsAntisymm (List Char × List Char) (fun a b => pairLe a b = true) :=
    ⟨pairLe_antisymm⟩
  refine List.eq_of_perm_of_sorted ?_ (folder_files_pairwise folder m)
    (folder_files_pairwise folder m')
  exact (folder_files_perm folder m).trans
    ((h.filter _).trans (folder_files_perm folder m').symm)

theorem compute_folder_hash_of_perm (folder : List Char) (m m' : List (List Char × List Char))
    (h : List.Perm m m') : compute_folder_hash folder m = compute_folder_hash folder m' := by
  unfold compute_folder_hash
  rw [folder_files_of_perm folder m m' h]

theorem foldl_append_canonLine (l : List (List Char × List Char)) :
    ∀ acc, l.foldl (fun acc pr => acc ++ canonLine pr) acc = acc ++ (l.map canonLine).flatten := by
  induction l with
  | nil => intro acc; simp
  | cons x xs ih =>
    intro acc
    simp only [List.foldl_cons, List.map_cons, List.flatten_cons]
    rw [ih (acc ++ canonLine x), List.append_assoc]

/-- Segment split of a relative path on slashes, as pathlib decomposes
the normalized relative paths this pipeline produces into parts (keys
built by the walk never contain repeated, leading or trailing
slashes). -/
def splitSlash : List Char → List (List Char)
  | [] => [[]]
  | c :: rest =>
    match splitSlash rest with
    | [] => [[]]
    | seg :: segs => if c = '/' then [] :: seg :: segs else (c :: seg) :: segs

/-- Parts joined back with slashes, as the source joins part prefixes. -/
def joinSegs (segs : List (List Char)) : List Char :=
  List.intercalate ['/'] segs

/-- Ancestor folders of a relative path: every prefix of its
slash-separated parts with the final component, the file name, dropped;
each prefix joined back with slashes. -/
def ancestorsOf (p : List Char) : List (List Char) :=
  let parts := (splitSlash p).dropLast
  (List.range parts.length).map (fun i => joinSegs (parts.take (i + 1)))

/-- Added paths of cmd_changes: keys of the current mapping absent from
the saved one. -/
def addedKeys (current saved : List (List Char × List Char)) : List (List Char) :=
  (current.map Prod.fst).filter (fun k => !((saved.map Prod.fst).contains k))

/-- Removed paths of cmd_changes: keys of the saved mapping absent from
the current one. -/
def removedKeys (current saved : List (List Char × List Char)) : List (List Char) :=
  (saved.map Prod.fst).filter (fun k => !((current.map Prod.fst).contains k))

/-- Modified paths of cmd_changes: keys present in both mappings whose
digests differ. -/
def modifiedKeys (current saved : List (List Char × List Char)) : List (List Char) :=
  (current.map Prod.fst).filter (fun k =>
    (saved.map Prod.fst).contains k && !(List.lookup k current == List.lookup k saved))

structure ChangeSet where
  added : List (List Char)
  removed : List (List Char)
  modified : List (List Char)
  affected : List (List Char)
deriving DecidableEq

/-- Affected folders of cmd_changes: for every changed path, all of its
ancestor folders and the root dot (the source's set is modelled as a
list with membership semantics). -/
def affectedFolders (changed : List (List Char)) : List (List Char) :=
  changed.flatMap (fun p => ancestorsOf p ++ [['.']])

/-- Read-only change detection of cmd_changes over the freshly computed
and the persisted mapping: when nothing was added, removed or modified
the command reports no changes and computes no affected set at all;
otherwise it reports the three sets together with the affected folders
of their union. -/
def cmd_changes_core (current saved : List (List Char × List Char)) : Option ChangeSet :=
  if (addedKeys current saved).isEmpty && (removedKeys current saved).isEmpty
      && (modifiedKeys current saved).isEmpty then none
  else some { added := addedKeys current saved, removed := removedKeys current saved,
              modified := modifiedKeys current saved,
              affected := affectedFolders (addedKeys current saved ++
                removedKeys current saved ++ modifiedKeys current saved) }

structure CartMetadata where
  version : List Char
  last_run : List Char
  root : List Char
  include_patterns : List (List Char)
  exclude_patterns : List (List Char)
  exceptions : List (List Char)

structure CartCheckpoint where
  metadata : CartMetadata
  file_hashes : List (List Char × List Char)
  folder_hashes : List (List Char × List Char)

/-- Folder set of get_folders_with_files: every ancestor folder of every
selected file, and always the root dot. The source's set is modelled as
a list; duplicates are harmless because each folder is mapped to the
same recomputed digest. -/
def get_folders_with_files (files : List (List Char)) : List (List Char) :=
  files.flatMap ancestorsOf ++ [['.']]

/-- Checkpoint update of cmd_update: re-select and re-hash using the
configuration stored in the loaded checkpoint, then save the loaded
state with only the last-run stamp, the file-hash mapping and the
folder-hash mapping replaced. -/
def cmd_update_core (st : CartCheckpoint) (tree : FSTree)
    (git : List (List Char)) (readF : List Char → Option (List Char))
    (now : List Char) : CartCheckpoint :=
  let files := select_files tree st.metadata.include_patterns
    st.metadata.exclude_patterns st.metadata.exceptions git
  let fh := build_file_hashes readF files
  let folders := get_folders_with_files files
  { metadata :=
      { version := st.metadata.version
        last_run := now
        root := st.metadata.root
        include_patterns := st.metadata.include_patterns
        exclude_patterns := st.metadata.exclude_patterns
        exceptions := st.metadata.exceptions }
    file_hashes := fh
    folder_hashes := folders.map (fun fo => (fo, compute_folder_hash fo fh)) }

/-- C1: selection applies the predicates in the source's exact order: a
path matched by the ignore-file matcher is excluded unconditionally,
even when it is a literal member of the exceptions set; otherwise a path
matched by the exclude matcher is excluded unless it is a literal member
of the exceptions set; what remains is selected exactly when the include
matcher matches it or it is a literal member of the exceptions set. -/
theorem select_files_precedence (tree : FSTree) (inc exc exn git : List (List Char))
    (p : List Char) :
    p ∈ select_files tree inc exc exn git ↔
      (p ∈ walkTree [] tree ∧
       PatternMatcher.matches git p = false ∧
       (PatternMatcher.matches exc p = true → p ∈ exn) ∧
       (PatternMatcher.matches inc p = true ∨ p ∈ exn)) := by
  rw [mem_select_files, selectKeep_eq_true]

/-- C5 counterexample: a file that is a literal member of the exceptions
set, matches no ignore-file pattern and matches no include pattern is
nevertheless selected, because step three of the source includes any
path in the exceptions set regardless of the include matcher. -/
theorem exception_without_include_selected :
    PatternMatcher.matches [['*', '.', 't', 'x', 't']] ['d', 'b', '.', 'l', 'o', 'g'] = false ∧
    select_files (FSTree.node [['d', 'b', '.', 'l', 'o', 'g']] [])
      [['*', '.', 't', 'x', 't']] [['*', '.', 'l', 'o', 'g']]
      [['d', 'b', '.', 'l', 'o', 'g']] [] = [['d', 'b', '.', 'l', 'o', 'g']] := by
  refine ⟨by decide, ?_⟩
  unfold select_files
  rw [show (walkTree [] (FSTree.node [['d', 'b', '.', 'l', 'o', 'g']] [])).filter
      (selectKeep [['*', '.', 't', 'x', 't']] [['*', '.', 'l', 'o', 'g']]
        [['d', 'b', '.', 'l', 'o', 'g']] []) = [['d', 'b', '.', 'l', 'o', 'g']] from by decide]
  exact List.mergeSort_singleton _

/-- C5 amended: a walked path that is a literal member of the exceptions
set and is not matched by any ignore-file pattern is always selected,
even when it matches an exclude pattern and even when no include pattern
matches it; exceptions are not restricted to paths matching an include
pattern. -/
theorem exception_forces_selection (tree : FSTree) (inc exc exn git : List (List Char))
    (p : List Char) (hw : p ∈ walkTree [] tree) (hx : p ∈ exn)
    (hg : PatternMatcher.matches git p = false) :
    p ∈ select_files tree inc exc exn git := by
  rw [mem_select_files, selectKeep_eq_true]
  exact ⟨hw, hg, fun _ => hx, Or.inr hx⟩

theorem exception_forces_selection_witness :
    ['e'] ∈ walkTree [] (FSTree.node [['e']] []) ∧
    ['e'] ∈ [[ 'e' ]] ∧
    PatternMatcher.matches [] ['e'] = false ∧
    ['e'] ∈ select_files (FSTree.node [['e']] []) [] [['*']] [[ 'e' ]] [] :=
  ⟨by decide, by decide, by decide,
    exception_forces_selection (FSTree.node [['e']] []) [] [['*']] [[ 'e' ]] []
      ['e'] (by decide) (by decide) (by decide)⟩

/-- C7: the selection result is strictly ascending in the code-point
order of the relative path strings, it consists exactly of the kept
walked paths, and it is independent of the filesystem enumeration
order: a tree walked to any permutation of the same candidate paths
yields the identical sorted list. -/
theorem select_files_sorted_deterministic (tree : FSTree)
    (inc exc exn git : List (List Char)) (hnd : (walkTree [] tree).Nodup) :
    (select_files tree inc exc exn git).Pairwise
      (fun a b => lexLe a b = true ∧ a ≠ b) ∧
    List.Perm (select_files tree inc exc exn git)
      ((walkTree [] tree).filter (selectKeep inc exc exn git)) ∧
    (∀ tree', List.Perm (walkTree [] tree') (walkTree [] tree) →
      select_files tree' inc exc exn git = select_files tree inc exc exn git) := by
  have hperm := select_files_perm tree inc exc exn git
  have hnodup : (select_files tree inc exc exn git).Nodup :=
    hperm.nodup_iff.mpr (hnd.filter _)
  refine ⟨?_, hperm, ?_⟩
  · exact (select_files_pairwise tree inc exc exn git).and hnodup
  · intro tree' hp
    haveI : IsAntisymm (List Char) (fun a b => lexLe a b = true) := ⟨lexLe_antisymm⟩
    refine List.eq_of_perm_of_sorted ?_
      (select_files_pairwise tree' inc exc exn git)
      (select_files_pairwise tree inc exc exn git)
    exact (select_files_perm tree' inc exc exn git).trans
      ((hp.filter _).trans hperm.symm)

theorem select_files_sorted_deterministic_witness :
    (walkTree [] (FSTree.node [['b'], ['a']] [])).Nodup ∧
    List.Perm (select_files (FSTree.node [['b'], ['a']] []) [['*']] [] [] [])
      ((walkTree [] (FSTree.node [['b'], ['a']] [])).filter (selectKeep [['*']] [] [] [])) :=
  ⟨by decide,
    (select_files_sorted_deterministic (FSTree.node [['b'], ['a']] [])
      [['*']] [] [] [] (by decide)).2.1⟩

/-- C8: a file whose open or read fails yields the empty-string sentinel
digest instead of raising, and the hashing loop still produces exactly
one entry per selected file in order, so a single unreadable file never
aborts the mapping run or surfaces as a failure. -/
theorem unreadable_file_sentinel (readF : List Char → Option (List Char))
    (files : List (List Char)) (f : List Char) (hf : f ∈ files)
    (hr : readF f = none) :
    (f, ([] : List Char)) ∈ build_file_hashes readF files ∧
    (build_file_hashes readF files).map Prod.fst = files ∧
    (build_file_hashes readF files).length = files.length := by
  refine ⟨?_, ?_, ?_⟩
  · unfold build_file_hashes
    rw [List.mem_map]
    refine ⟨f, hf, ?_⟩
    rw [hr]
    rfl
  · unfold build_file_hashes
    rw [List.map_map]
    exact List.map_id files
  · unfold build_file_hashes
    rw [List.length_map]

theorem unreadable_file_sentinel_witness :
    ['a'] ∈ [[ 'a' ]] ∧
    (fun _ : List Char => (none : Option (List Char))) ['a'] = none ∧
    (['a'], ([] : List Char)) ∈ build_file_hashes (fun _ => none) [[ 'a' ]] :=
  ⟨by decide, rfl,
    (unreadable_file_sentinel (fun _ => none) [[ 'a' ]] ['a'] (by decide) rfl).1⟩

/-- C9: the update command replaces only the last-run stamp, the
file-hash mapping and the folder-hash mapping of the loaded checkpoint;
version, root, include patterns, exclude patterns and exceptions are
written back unchanged from the loaded state. -/
theorem cmd_update_frame (st : CartCheckpoint) (tree : FSTree)
    (git : List (List Char)) (readF : List Char → Option (List Char))
    (now : List Char) :
    (cmd_update_core st tree git readF now).metadata.version = st.metadata.version ∧
    (cmd_update_core st tree git readF now).metadata.root = st.metadata.root ∧
    (cmd_update_core st tree git readF now).metadata.include_patterns =
      st.metadata.include_patterns ∧
    (cmd_update_core st tree git readF now).metadata.exclude_patterns =
      st.metadata.exclude_patterns ∧
    (cmd_update_core st tree git readF now).metadata.exceptions = st.metadata.exceptions ∧
    (cmd_update_core st tree git readF now).metadata.last_run = now :=
  ⟨rfl, rfl, rfl, rfl, rfl, rfl⟩

/-- Directories visited by the walk below a directory carried at a
given relative path: the directory itself, and recursively any
subdirectory whose name does not begin with a dot; dot-led directories
are pruned from dirnames, so nothing below them is ever visited. -/
inductive Visits : List Char → FSTree → List Char → FSTree → Prop where
  | here (pre : List Char) (t : FSTree) : Visits pre t pre t
  | child (pre : List Char) (fs : List (List Char)) (ds : List (List Char × FSTree))
      (n : List Char) (sub : FSTree) (pre' : List Char) (t' : FSTree) :
      (n, sub) ∈ ds → isHiddenName n = false →
      Visits (joinRel pre n) sub pre' t' →
      Visits pre (FSTree.node fs ds) pre' t'

theorem mem_walkDirs_of_child (pre : List Char) (ds : List (List Char × FSTree))
    (n : List Char) (sub : FSTree) (x : List Char)
    (hmem : (n, sub) ∈ ds) (hh : isHiddenName n = false)
    (hx : x ∈ walkTree (joinRel pre n) sub) : x ∈ walkDirs pre ds := by
  induction ds with
  | nil => cases hmem
  | cons hd rest ih =>
    obtain ⟨m, t0⟩ := hd
    show x ∈ (if isHiddenName m then [] else walkTree (joinRel pre m) t0) ++ walkDirs pre rest
    rcases List.mem_cons.mp hmem with he | hr
    · cases he
      apply List.mem_append_left
      rw [if_neg (by simp [hh])]
      exact hx
    · exact List.mem_append_right _ (ih hr)

theorem visits_walk_subset (pre : List Char) (t : FSTree) (pre' : List Char) (t' : FSTree)
    (hv : Visits pre t pre' t') : ∀ x, x ∈ walkTree pre' t' → x ∈ walkTree pre t := by
  induction hv with
  | here pre t => exact fun _ hx => hx
  | child pre fs ds n sub pre' t' hmem hh _ ih =>
    intro x hx
    show x ∈ fs.map (fun m => joinRel pre m) ++ walkDirs pre ds
    exact List.mem_append_right _ (mem_walkDirs_of_child pre ds n sub x hmem hh (ih x hx))

/-- C10: hidden-name pruning applies only to directories: a regular
file whose name begins with a dot, residing in any directory the walk
visits, the tracked root itself or any chain of non-dot-led
subdirectories below it, is still a walk candidate under its joined
relative path, and is selected whenever the include matcher accepts
that path and neither the ignore-file matcher nor an unexcepted
exclude match removes it. -/
theorem hidden_file_not_pruned (tree : FSTree) (pre : List Char)
    (fs : List (List Char)) (ds : List (List Char × FSTree))
    (inc exc exn git : List (List Char)) (n : List Char)
    (_hh : isHiddenName n = true)
    (hv : Visits [] tree pre (FSTree.node fs ds)) (hn : n ∈ fs)
    (hg : PatternMatcher.matches git (joinRel pre n) = false)
    (hx : PatternMatcher.matches exc (joinRel pre n) = true → joinRel pre n ∈ exn)
    (hi : PatternMatcher.matches inc (joinRel pre n) = true ∨ joinRel pre n ∈ exn) :
    joinRel pre n ∈ walkTree [] tree ∧
    joinRel pre n ∈ select_files tree inc exc exn git := by
  have hw : joinRel pre n ∈ walkTree [] tree := by
    apply visits_walk_subset [] tree pre (FSTree.node fs ds) hv
    show joinRel pre n ∈ fs.map (fun m => joinRel pre m) ++ walkDirs pre ds
    apply List.mem_append_left
    rw [List.mem_map]
    exact ⟨n, hn, rfl⟩
  refine ⟨hw, ?_⟩
  rw [mem_select_files, selectKeep_eq_true]
  exact ⟨hw, hg, hx, hi⟩

theorem hidden_file_not_pruned_witness :
    isHiddenName ['.', 'e'] = true ∧
    isHiddenName ['s'] = false ∧
    ['s', '/', '.', 'e'] ∈ select_files
      (FSTree.node [] [(['s'], FSTree.node [['.', 'e']] [])]) [['*']] [] [] [] := by
  refine ⟨by decide, by decide, ?_⟩
  have h := hidden_file_not_pruned
    (FSTree.node [] [(['s'], FSTree.node [['.', 'e']] [])]) ['s']
    [['.', 'e']] [] [['*']] [] [] [] ['.', 'e'] (by decide)
    (Visits.child [] [] [(['s'], FSTree.node [['.', 'e']] [])] ['s']
      (FSTree.node [['.', 'e']] []) ['s'] (FSTree.node [['.', 'e']] [])
      (List.mem_cons_self _ _) (by decide)
      (Visits.here ['s'] (FSTree.node [['.', 'e']] [])))
    (by decide) (by decide) (by decide) (by decide)
  exact h.2

theorem contains_eq_false_iff (l : List (List Char)) (k : List Char) :
    l.contains k = false ↔ k ∉ l := by
  rw [Bool.eq_false_iff]
  exact not_congr List.elem_iff

/-- C2 counterexample: with a single record nested in a subdirectory the
code's root-folder digest is the empty sentinel, because no pair
qualifies for the root dot, while a digest derived from all records
lying transitively under the root would not be empty: the root digest
does not depend on nested files. -/
theorem root_folder_hash_ignores_nested :
    compute_folder_hash ['.'] [(['a', '/', 'b'], ['x'])] = [] ∧
    compute_folder_hash_spec ['.'] [(['a', '/', 'b'], ['x'])] ≠ [] := by
  constructor
  · unfold compute_folder_hash folder_files
    rw [show ([(['a', '/', 'b'], ['x'])].filter (fun pr => folderQual ['.'] pr.1)) = []
        from by decide, List.mergeSort_nil]
    rfl
  · unfold compute_folder_hash_spec folder_files_spec
    rw [show ([(['a', '/', 'b'], ['x'])].filter (fun pr => folderQualSpec ['.'] pr.1)) =
        [(['a', '/', 'b'], ['x'])] from by decide, List.mergeSort_singleton]
    simp [md5Model]

/-- C2 amended: the digest of a folder aggregates exactly the records
that the code's qualification admits: for a non-root folder the records
whose path extends the folder with a slash, so directly or transitively
below it, and for the root dot only the records whose path contains no
slash (or carries a literal leading dot-slash, which normalized keys
never do); moreover every folder digest is a function of its qualifying
records alone. -/
theorem folder_hash_qualification (folder : List Char)
    (m m' : List (List Char × List Char)) :
    (∀ pr : List Char × List Char,
      pr ∈ folder_files folder m ↔
        (pr ∈ m ∧ ((folder ++ ['/']).isPrefixOf pr.1 = true ∨
          (folder = ['.'] ∧ pr.1.contains '/' = false)))) ∧
    (List.Perm (m.filter (fun pr => folderQual folder pr.1))
        (m'.filter (fun pr => folderQual folder pr.1)) →
      compute_folder_hash folder m = compute_folder_hash folder m') := by
  constructor
  · intro pr
    unfold folder_files
    rw [List.mem_mergeSort, List.mem_filter]
    simp only [folderQual, Bool.or_eq_true, Bool.and_eq_true, beq_iff_eq,
      Bool.not_eq_true']
  · intro h
    have heq : folder_files folder m = folder_files folder m' := by
      haveI : IsAntisymm (List Char × List Char) (fun a b => pairLe a b = true) :=
        ⟨pairLe_antisymm⟩
      refine List.eq_of_perm_of_sorted ?_ (folder_files_pairwise folder m)
        (folder_files_pairwise folder m')
      exact (folder_files_perm folder m).trans (h.trans (folder_files_perm folder m').symm)
    unfold compute_folder_hash
    rw [heq]

theorem folder_hash_qualification_witness :
    List.Perm ([(['a'], ['x']), (['b'], ['y'])].filter (fun pr => folderQual ['.'] pr.1))
      ([(['b'], ['y']), (['a'], ['x'])].filter (fun pr => folderQual ['.'] pr.1)) ∧
    compute_folder_hash ['.'] [(['a'], ['x']), (['b'], ['y'])] =
      compute_folder_hash ['.'] [(['b'], ['y']), (['a'], ['x'])] :=
  ⟨by decide,
    (folder_hash_qualification ['.'] [(['a'], ['x']), (['b'], ['y'])]
      [(['b'], ['y']), (['a'], ['x'])]).2 (by decide)⟩

/-- C3: the folder digest is the empty-string sentinel exactly when no
pair qualifies, a valid value rather than an error or an absent key;
otherwise it is the digest of the canonical path-colon-digest-newline
lines of the qualifying pairs concatenated in sorted order; the
qualifying pairs are sorted by the pair order; and the digest is a pure
function of the pairs as a multiset, independent of the mapping's
insertion or walk order. -/
theorem compute_folder_hash_canonical (folder : List Char)
    (m m' : List (List Char × List Char)) :
    (folder_files folder m = [] → compute_folder_hash folder m = []) ∧
    (folder_files folder m ≠ [] →
      compute_folder_hash folder m =
        md5Model (((folder_files folder m).map canonLine).flatten)) ∧
    (folder_files folder m).Pairwise (fun a b => pairLe a b = true) ∧
    (List.Perm m m' → compute_folder_hash folder m = compute_folder_hash folder m') := by
  refine ⟨?_, ?_, folder_files_pairwise folder m, compute_folder_hash_of_perm folder m m'⟩
  · intro h
    unfold compute_folder_hash
    rw [h]
    rfl
  · intro h
    unfold compute_folder_hash
    rw [if_neg (fun hc => h (List.isEmpty_iff.mp hc)), foldl_append_canonLine,
      List.nil_append]

theorem compute_folder_hash_canonical_witness :
    folder_files ['.'] ([] : List (List Char × List Char)) = [] ∧
    compute_folder_hash ['.'] ([] : List (List Char × List Char)) = [] ∧
    folder_files ['.'] [(['a'], ['x'])] ≠ [] ∧
    compute_folder_hash ['.'] [(['a'], ['x'])] =
      md5Model (((folder_files ['.'] [(['a'], ['x'])]).map canonLine).flatten) ∧
    compute_folder_hash ['.'] [(['a'], ['x'])] =
      compute_folder_hash ['.'] [(['a'], ['x'])] := by
  have h0 : folder_files ['.'] ([] : List (List Char × List Char)) = [] := by
    unfold folder_files
    rw [List.filter_nil, List.mergeSort_nil]
  have h1 : folder_files ['.'] [(['a'], ['x'])] ≠ [] := by
    unfold folder_files
    rw [show ([(['a'], ['x'])].filter (fun pr => folderQual ['.'] pr.1)) = [(['a'], ['x'])]
        from by decide, List.mergeSort_singleton]
    simp
  exact ⟨h0, (compute_folder_hash_canonical ['.'] [] []).1 h0, h1,
    (compute_folder_hash_canonical ['.'] [(['a'], ['x'])] []).2.1 h1,
    (compute_folder_hash_canonical ['.'] [(['a'], ['x'])]
      [(['a'], ['x'])]).2.2.2 (List.Perm.refl _)⟩

/-- C4: change classification: added is the keys of the current mapping
absent from the saved one, removed the keys of the saved mapping absent
from the current one, modified the keys of both whose digests differ; no
change set at all is reported exactly when the three are empty; and a
reported change set's affected folders are exactly the ancestor folders
of the changed paths together with the root dot, so the root is in the
affected set precisely because at least one change exists. -/
theorem cmd_changes_classification (current saved : List (List Char × List Char)) :
    (∀ k, k ∈ addedKeys current saved ↔
      (k ∈ current.map Prod.fst ∧ k ∉ saved.map Prod.fst)) ∧
    (∀ k, k ∈ removedKeys current saved ↔
      (k ∈ saved.map Prod.fst ∧ k ∉ current.map Prod.fst)) ∧
    (∀ k, k ∈ modifiedKeys current saved ↔
      (k ∈ current.map Prod.fst ∧ k ∈ saved.map Prod.fst ∧
        List.lookup k current ≠ List.lookup k saved)) ∧
    (cmd_changes_core current saved = none ↔
      (addedKeys current saved = [] ∧ removedKeys current saved = [] ∧
        modifiedKeys current saved = [])) ∧
    (∀ cs, cmd_changes_core current saved = some cs →
      ∀ x, x ∈ cs.affected ↔
        ((∃ p, (p ∈ addedKeys current saved ∨ p ∈ removedKeys current saved ∨
            p ∈ modifiedKeys current saved) ∧ x ∈ ancestorsOf p) ∨ x = ['.'])) := by
  refine ⟨?_, ?_, ?_, ?_, ?_⟩
  · intro k
    unfold addedKeys
    rw [List.mem_filter, Bool.not_eq_true', contains_eq_false_iff]
  · intro k
    unfold removedKeys
    rw [List.mem_filter, Bool.not_eq_true', contains_eq_false_iff]
  · intro k
    unfold modifiedKeys
    rw [List.mem_filter, Bool.and_eq_true, Bool.not_eq_true', beq_eq_false_iff_ne]
    constructor
    · rintro ⟨h1, h2, h3⟩
      exact ⟨h1, List.elem_iff.mp h2, h3⟩
    · rintro ⟨h1, h2, h3⟩
      exact ⟨h1, List.elem_iff.mpr h2, h3⟩
  · unfold cmd_changes_core
    by_cases h : ((addedKeys current saved).isEmpty && (removedKeys current saved).isEmpty
        && (modifiedKeys current saved).isEmpty) = true
    · rw [if_pos h]
      simp only [Bool.and_eq_true, List.isEmpty_iff] at h
      exact ⟨fun _ => ⟨h.1.1, h.1.2, h.2⟩, fun _ => rfl⟩
    · rw [if_neg h]
      constructor
      · intro hc
        exact absurd hc (by simp)
      · rintro ⟨h1, h2, h3⟩
        refine absurd ?_ h
        simp only [Bool.and_eq_true, List.isEmpty_iff]
        exact ⟨⟨h1, h2⟩, h3⟩
  · intro cs hcs x
    unfold cmd_changes_core at hcs
    by_cases h : ((addedKeys current saved).isEmpty && (removedKeys current saved).isEmpty
        && (modifiedKeys current saved).isEmpty) = true
    · rw [if_pos h] at hcs
      exact absurd hcs (by simp)
    · rw [if_neg h] at hcs
      have hcs' := Option.some.inj hcs
      rw [← hcs']
      show x ∈ affectedFolders (addedKeys current saved ++ removedKeys current saved ++
        modifiedKeys current saved) ↔ _
      unfold affectedFolders
      rw [List.mem_flatMap]
      constructor
      · rintro ⟨p, hp, hx⟩
        rcases List.mem_append.mp hx with h1 | h1
        · refine Or.inl ⟨p, ?_, h1⟩
          rcases List.mem_append.mp hp with h2 | h2
          · rcases List.mem_append.mp h2 with h3 | h3
            · exact Or.inl h3
            · exact Or.inr (Or.inl h3)
          · exact Or.inr (Or.inr h2)
        · exact Or.inr (List.mem_singleton.mp h1)
      · rintro (⟨p, hp, h1⟩ | hx)
        · refine ⟨p, ?_, List.mem_append_left _ h1⟩
          rcases hp with h2 | h2 | h2
          · exact List.mem_append_left _ (List.mem_append_left _ h2)
          · exact List.mem_append_left _ (List.mem_append_right _ h2)
          · exact List.mem_append_right _ h2
        · have hne : addedKeys current saved ++ removedKeys current saved ++
              modifiedKeys current saved ≠ [] := by
            intro he
            rcases List.append_eq_nil.mp he with ⟨he1, he3⟩
            rcases List.append_eq_nil.mp he1 with ⟨ha, hr⟩
            refine h ?_
            simp only [Bool.and_eq_true, List.isEmpty_iff]
            exact ⟨⟨ha, hr⟩, he3⟩
          obtain ⟨p, hp⟩ := List.exists_mem_of_ne_nil _ hne
          refine ⟨p, hp, List.mem_append_right _ ?_⟩
          rw [hx]
          exact List.mem_singleton.mpr rfl

theorem cmd_changes_classification_witness :
    cmd_changes_core [(['a', '/', 'b'], ['x'])] [] =
      some (ChangeSet.mk [['a', '/', 'b']] [] [] [['a'], ['.']]) ∧
    (['a'] ∈ ChangeSet.affected (ChangeSet.mk [['a', '/', 'b']] [] [] [['a'], ['.']]) ↔
      ((∃ p, (p ∈ addedKeys [(['a', '/', 'b'], ['x'])] [] ∨
          p ∈ removedKeys [(['a', '/', 'b'], ['x'])] [] ∨
          p ∈ modifiedKeys [(['a', '/', 'b'], ['x'])] []) ∧ ['a'] ∈ ancestorsOf p) ∨
        ['a'] = ['.'])) := by
  have h : cmd_changes_core [(['a', '/', 'b'], ['x'])] [] =
      some (ChangeSet.mk [['a', '/', 'b']] [] [] [['a'], ['.']]) := by decide
  exact ⟨h, (cmd_changes_classification [(['a', '/', 'b'], ['x'])] []).2.2.2.2 _ h ['a']⟩

/-- C6 counterexample: the compiled matcher accepts a path carrying a
trailing newline without consuming it, because the dollar anchor of the
Python regex also matches just before a trailing newline; under glob
semantics that must consume to the end of the path the same pattern
list does not match that path. -/
theorem matcher_trailing_newline :
    PatternMatcher.matches [['a']] ['a', '\n'] = true ∧
    specMatches [['a']] ['a', '\n'] = false :=
  ⟨by decide, by decide⟩

/-- C6 amended: on every path containing no newline character the
compiled matcher matches exactly when at least one pattern of the list
matches under the spec's glob semantics, with matching consuming to the
end of the path, the single star excluding slash, slash-led patterns
anchored at the root and all others free to start at any path-segment
boundary; the matcher compiled from the empty list matches no path. On
a path with a trailing newline the matcher may also accept with the
newline left unconsumed. -/
theorem matcher_agrees_with_glob (pats : List (List Char)) (p : List Char)
    (h : '\n' ∉ p) :
    (PatternMatcher.matches pats p = true ↔
      ∃ pat, pat ∈ pats ∧ specCompiled (compilePattern pat) p = true) ∧
    PatternMatcher.matches [] p = false := by
  refine ⟨?_, rfl⟩
  rw [matches_eq_specMatches pats p h]
  unfold specMatches
  exact List.any_eq_true

theorem matcher_agrees_with_glob_witness :
    '\n' ∉ ['a', '/', 'b'] ∧
    (PatternMatcher.matches [['*']] ['a', '/', 'b'] = true ↔
      ∃ pat, pat ∈ [['*']] ∧ specCompiled (compilePattern pat) ['a', '/', 'b'] = true) :=
  ⟨by decide, (matcher_agrees_with_glob [['*']] ['a', '/', 'b'] (by decide)).1⟩

theorem select_files_precedence_witness :
    ['a'] ∈ select_files (FSTree.node [['a']] []) [['*']] [] [] [] ↔
      (['a'] ∈ walkTree [] (FSTree.node [['a']] []) ∧
       PatternMatcher.matches [] ['a'] = false ∧
       (PatternMatcher.matches [] ['a'] = true → ['a'] ∈ ([] : List (List Char))) ∧
       (PatternMatcher.matches [['*']] ['a'] = true ∨ ['a'] ∈ ([] : List (List Char)))) :=
  select_files_precedence (FSTree.node [['a']] []) [['*']] [] [] [] ['a']
